import Mathlib

/-!
Verification development for a sales-report ingestion and aggregation pipeline.

The embedding conventions for the JavaScript/TypeScript source:
* machine numbers are `ℚ` (currency amounts) and `Int` (timestamps, quantities);
  `NaN` results of `parseFloat` are represented by `Option` (`none` = NaN);
* `Date` instants are `Int` milliseconds since the Unix epoch, assuming a UTC
  runtime (so `toISOString`, `setHours` and day bucketing agree with the
  integer arithmetic used here);
* string primitives (`trim`, `toLowerCase`, `split`) are modelled structurally
  over `List Char` with the ASCII whitespace and letter ranges, which covers
  every input appearing in the claims;
* JavaScript objects / `Map`s are association lists preserving insertion order,
  and the stable `Array.prototype.sort` is modelled by `List.insertionSort`,
  which is stable; a stable sort is determined uniquely by the comparator, so
  the choice of algorithm is immaterial.
-/

namespace ThongkeLibe

/-! ### JavaScript string primitives -/

/-- ASCII whitespace, the characters relevant to `String.prototype.trim` here. -/
def wsChar (c : Char) : Bool :=
  c = ' ' || c = '\t' || c = '\n' || c = '\r'

/-- Remove leading and trailing whitespace from a character list. -/
def trimChars (l : List Char) : List Char :=
  ((l.dropWhile wsChar).reverse.dropWhile wsChar).reverse

/-- Model of `s.trim()`. -/
def jsTrim (s : String) : String :=
  String.mk (trimChars s.data)

/-- ASCII lower-casing of one character, model of the case mapping used by
`toLowerCase` on the inputs of interest. -/
def lowChar (c : Char) : Char :=
  if 65 ≤ c.toNat ∧ c.toNat ≤ 90 then Char.ofNat (c.toNat + 32) else c

/-- Model of `s.toLowerCase()`. -/
def jsToLower (s : String) : String :=
  String.mk (s.data.map lowChar)

/-- Model of `text.split(sep)` for a one-character separator. -/
def splitOnChar (sep : Char) : List Char → List (List Char)
  | [] => [[]]
  | c :: rest =>
    if c = sep then [] :: splitOnChar sep rest
    else
      match splitOnChar sep rest with
      | [] => [[c]]
      | f :: fs => (c :: f) :: fs

/-! ### Delimited-text splitter (`parseCSVLine`) -/

/-- The character loop of `parseCSVLine`: a double quote toggles the
`inQuote` state (and is itself dropped), a comma outside quotes ends the
current field, any other character is appended to the current field.
`cur` is the current field accumulated in reverse. -/
def splitFieldsAux : List Char → List Char → Bool → List (List Char)
  | [], cur, _ => [cur.reverse]
  | c :: rest, cur, inQuote =>
    if c = '"' then splitFieldsAux rest cur (!inQuote)
    else if c = ',' ∧ inQuote = false then cur.reverse :: splitFieldsAux rest [] inQuote
    else splitFieldsAux rest (c :: cur) inQuote

/-- The raw field split of one line, before per-field cleanup. -/
def splitFields (l : List Char) : List (List Char) :=
  splitFieldsAux l [] false

/-- Model of `v.replace(/^"|"$/g, '')`: one leading double quote (if present)
and one trailing double quote (if still present) are removed independently. -/
def stripEdgeQuotes (l : List Char) : List Char :=
  let l1 := if l.head? = some '"' then l.tail else l
  if l1.getLast? = some '"' then l1.dropLast else l1

/-- `parseCSVLine` from the data service: split honouring quoted fields, then
trim each field, strip edge quotes, and trim again. -/
def parseCSVLine (text : String) : List String :=
  (splitFields text.data).map
    (fun v => String.mk (trimChars (stripEdgeQuotes (trimChars v))))

/-- Modelled from the spec: stripping one matching *pair* of enclosing double
quotes (both a leading and a trailing quote must be present). Used to compare
the spec wording with the independent edge-stripping done by the code. -/
def stripQuotePair (l : List Char) : List Char :=
  if l.head? = some '"' ∧ l.getLast? = some '"' ∧ 2 ≤ l.length then
    l.tail.dropLast
  else l

/-! ### Currency parser (`parseCurrency`) -/

/-- Characters kept by the first cleanup step of `parseCurrency`. -/
def currencyKeep (c : Char) : Bool :=
  c.isDigit || c = '.' || c = ','

/-- Decimal value of a digit string (the value `parseInt` gives on an
all-digit string). -/
def digitsToNat (l : List Char) : Nat :=
  l.foldl (fun acc c => 10 * acc + (c.toNat - 48)) 0

/-- Model of JavaScript `parseFloat` on the strings reachable here (digits and
dots): parse the longest prefix of the form `digits [. digits]`, ignore the
rest; `none` models `NaN` (no digit in the prefix). -/
def jsParseFloat (l : List Char) : Option ℚ :=
  let ip := l.takeWhile Char.isDigit
  let rest := l.dropWhile Char.isDigit
  match rest with
  | '.' :: rest2 =>
    let fp := rest2.takeWhile Char.isDigit
    if ip = [] ∧ fp = [] then none
    else some ((digitsToNat ip : ℚ) + (digitsToNat fp : ℚ) / (10 : ℚ) ^ fp.length)
  | _ => if ip = [] then none else some (digitsToNat ip)

/-- `parseCurrency` from the data service. `none` models a `NaN` result. -/
def parseCurrency (value : String) : Option ℚ :=
  if value = "" then some 0
  else
    let clean := value.data.filter currencyKeep
    if clean = [] then some 0
    else if clean.contains '.' ∧ ¬ clean.contains ',' then
      jsParseFloat (clean.filter (fun c => c ≠ '.'))
    else if clean.contains ',' ∧ ¬ clean.contains '.' then
      jsParseFloat (clean.filter (fun c => c ≠ ','))
    else
      jsParseFloat ((clean.filter (fun c => c ≠ '.')).map
        (fun c => if c = ',' then '.' else c))

/-! ### Quantity parser (`parseNumber`) -/

/-- `parseNumber` from the data service: `parseInt` of the digit characters,
with `|| 1` collapsing both `NaN` (no digits) and `0` to `1`. -/
def parseNumber (value : String) : Nat :=
  if value = "" then 1
  else
    let n := digitsToNat (value.data.filter Char.isDigit)
    if n = 0 then 1 else n

/-! ### Date parser (`parseDate`) and the civil calendar -/

/-- Separators accepted between the date components. -/
def sepChar (c : Char) : Bool :=
  c = '/' || c = '-' || c = '.'

/-- Read exactly `n` digit characters, returning them and the remainder. -/
def grabDigits : Nat → List Char → Option (List Char × List Char)
  | 0, l => some ([], l)
  | _ + 1, [] => none
  | n + 1, c :: rest =>
    if c.isDigit then (grabDigits n rest).map (fun p => (c :: p.1, p.2)) else none

/-- Match exactly `k` digits and return their numeric value with the rest. -/
def matchDigits (l : List Char) (k : Nat) : Option (Nat × List Char) :=
  (grabDigits k l).map (fun p => (digitsToNat p.1, p.2))

/-- Consume one separator character. -/
def matchSep : List Char → Option (List Char)
  | [] => none
  | c :: rest => if sepChar c then some rest else none

/-- Attempt the pattern with fixed component widths `dLen`, `mLen` and a
4-digit year at the current position. -/
def matchDMYWith (l : List Char) (dLen mLen : Nat) : Option (Nat × Nat × Nat) :=
  match matchDigits l dLen with
  | none => none
  | some (d, r1) =>
    match matchSep r1 with
    | none => none
    | some r2 =>
      match matchDigits r2 mLen with
      | none => none
      | some (m, r3) =>
        match matchSep r3 with
        | none => none
        | some r4 =>
          match matchDigits r4 4 with
          | none => none
          | some (y, _) => some (d, m, y)

/-- Greedy attempt of `(\d{1,2})[\/\-\.](\d{1,2})[\/\-\.](\d{4})` at one
position: two-digit components are preferred, with regex backtracking order. -/
def matchDMYHere (l : List Char) : Option (Nat × Nat × Nat) :=
  match matchDMYWith l 2 2 with
  | some r => some r
  | none =>
    match matchDMYWith l 2 1 with
    | some r => some r
    | none =>
      match matchDMYWith l 1 2 with
      | some r => some r
      | none => matchDMYWith l 1 1

/-- Leftmost match of the day/month/year pattern, as `String.match` finds it. -/
def findDMY : List Char → Option (Nat × Nat × Nat)
  | [] => none
  | c :: rest =>
    match matchDMYHere (c :: rest) with
    | some r => some r
    | none => findDMY rest

/-- Gregorian leap year. -/
def isLeapYear (y : Int) : Bool :=
  y % 4 = 0 && (y % 100 ≠ 0 || y % 400 = 0)

/-- Number of days in a month of the proleptic Gregorian calendar. -/
def daysInMonth (y : Int) (m : Nat) : Nat :=
  if m = 1 ∨ m = 3 ∨ m = 5 ∨ m = 7 ∨ m = 8 ∨ m = 10 ∨ m = 12 then 31
  else if m = 4 ∨ m = 6 ∨ m = 9 ∨ m = 11 then 30
  else if isLeapYear y then 29 else 28

/-- Validity of a civil date, the condition under which the `Date` built from
`"y-m-d"` is not an Invalid Date. -/
def validCivil (y : Int) (m d : Nat) : Bool :=
  1 ≤ m && m ≤ 12 && 1 ≤ d && d ≤ daysInMonth y m

/-- Days from the epoch 1970-01-01 to the civil date `y-m-d`
(Howard Hinnant's `days_from_civil`). -/
def daysFromCivil (y : Int) (m d : Nat) : Int :=
  let y2 : Int := if m ≤ 2 then y - 1 else y
  let era : Int := Int.fdiv y2 400
  let yoe : Int := y2 - era * 400
  let mp : Nat := (m + 9) % 12
  let doy : Nat := (153 * mp + 2) / 5 + d - 1
  let doe : Int := yoe * 365 + Int.fdiv yoe 4 - Int.fdiv yoe 100 + (doy : Int)
  era * 146097 + doe - 719468

/-- Civil date of a day number (Howard Hinnant's `civil_from_days`), used to
read the calendar date back off an instant. -/
def civilFromDays (z0 : Int) : Int × Nat × Nat :=
  let z : Int := z0 + 719468
  let era : Int := Int.fdiv z 146097
  let doe : Nat := (z - era * 146097).toNat
  let yoe : Nat := (doe - doe / 1460 + doe / 36524 - doe / 146096) / 365
  let y : Int := (yoe : Int) + era * 400
  let doy : Nat := doe - (365 * yoe + yoe / 4 - yoe / 100)
  let mp : Nat := (5 * doy + 2) / 153
  let d : Nat := doy - (153 * mp + 2) / 5 + 1
  let m : Nat := if mp < 10 then mp + 3 else mp - 9
  (if mp < 10 then y else y + 1, m, d)

def msPerDay : Int := 86400000

/-- `parseDate` from the data service. The environment-defined generic
`new Date(string)` fallback is a parameter `genericParse` (`none` = invalid),
and the current instant is the parameter `now`. A matched day/month/year
pattern that forms a valid civil date yields the UTC midnight instant of that
date; otherwise the generic parse of the whole value is used; otherwise `now`. -/
def parseDate (genericParse : String → Option Int) (now : Int) (value : String) : Int :=
  if value = "" then now
  else
    match findDMY value.data with
    | some (d, m, y) =>
      if validCivil (Int.ofNat y) m d then msPerDay * daysFromCivil (Int.ofNat y) m d
      else (genericParse value).getD now
    | none => (genericParse value).getD now

/-! ### Data model -/

/-- The canonical sales record, `Order` from `types`. `date` is the instant in
milliseconds since the epoch (the ISO string of the source, as an instant). -/
structure Order where
  id : String
  date : Int
  amount : ℚ
  quantity : Int
  customerName : String
  details : String
  facebookLink : String
  originalData : List (String × String)
deriving DecidableEq

/-- A grouped order: the same shape plus the `subOrders` history, as built by
the grouping engine (`{ ...order, subOrders: [...] }`). -/
structure GOrder where
  id : String
  date : Int
  amount : ℚ
  quantity : Int
  customerName : String
  details : String
  facebookLink : String
  originalData : List (String × String)
  subOrders : List Order
deriving DecidableEq

/-- One bucket of the daily aggregation. `date` is the calendar-day index
(days since the epoch), the embedding of the `YYYY-MM-DD` key. -/
structure DailyStat where
  date : Int
  orderCount : Int
  revenue : ℚ
deriving DecidableEq

/-- One row of the top-customer projection. -/
structure TopCustomer where
  name : String
  totalOrders : Int
  totalRevenue : ℚ
  lastOrderDate : Int
deriving DecidableEq

/-! ### Date-range filter (`filteredOrders`) -/

/-- `Number.MAX_VALUE`, which is an integer, used by the filter as the default
end bound. -/
def jsMaxValue : Int := 2 ^ 1024 - 2 ^ 971

/-- `new Date(startDate).setHours(0,0,0,0)` for a calendar day `d` (UTC). -/
def dayStartMs (d : Int) : Int := msPerDay * d

/-- `new Date(endDate).setHours(23,59,59,999)` for a calendar day `d` (UTC). -/
def dayEndMs (d : Int) : Int := msPerDay * d + 86399999

/-- The `filteredOrders` memo of the App: the optional bounds are calendar
days; both absent returns the input unchanged, otherwise a missing start
becomes `0` and a missing end becomes `Number.MAX_VALUE`. -/
def filteredOrders (startDate endDate : Option Int) (orders : List Order) : List Order :=
  if startDate = none ∧ endDate = none then orders
  else
    let s : Int := match startDate with
      | some d => dayStartMs d
      | none => 0
    let e : Int := match endDate with
      | some d => dayEndMs d
      | none => jsMaxValue
    orders.filter (fun o => s ≤ o.date ∧ o.date ≤ e)

/-! ### Grouping / merge engine (`groupedOrders`) -/

/-- The grouping key: `order.customerName.trim().toLowerCase()`. -/
def normKey (o : Order) : String :=
  jsToLower (jsTrim o.customerName)

/-- Seeding a group from its first order:
`{ ...order, subOrders: [order], details: order.details ? '- ' + d : '' }`. -/
def seed (o : Order) : GOrder :=
  ⟨o.id, o.date, o.amount, o.quantity, o.customerName,
    (if o.details = "" then "" else "- " ++ o.details),
    o.facebookLink, o.originalData, [o]⟩

/-- Merging a later order of the same key into the group, field by field as
the source mutates the group record. -/
def mergeInto (g : GOrder) (o : Order) : GOrder :=
  ⟨g.id, o.date, g.amount + o.amount, g.quantity + o.quantity, o.customerName,
    (if o.details = "" then g.details
     else if g.details = "" then "- " ++ o.details
     else g.details ++ "\n" ++ ("- " ++ o.details)),
    (if g.facebookLink = "" ∧ o.facebookLink ≠ "" then o.facebookLink
     else g.facebookLink),
    g.originalData, g.subOrders ++ [o]⟩

/-- Insert one order into the insertion-ordered key→group map, the body of the
`forEach` over the date-sorted orders. -/
def ginsert : List (String × GOrder) → Order → List (String × GOrder)
  | [], o => [(normKey o, seed o)]
  | (k, g) :: rest, o =>
    if k = normKey o then (k, mergeInto g o) :: rest
    else (k, g) :: ginsert rest o

/-- Ascending-date comparison of orders, the first sort of the engine. -/
def dateLe (a b : Order) : Prop := a.date ≤ b.date

instance : DecidableRel dateLe := fun a b => Int.decLe a.date b.date

instance : IsTotal Order dateLe := ⟨fun a b => Int.le_total a.date b.date⟩

instance : IsTrans Order dateLe := ⟨fun _ _ _ h1 h2 => le_trans h1 h2⟩

/-- Descending-amount comparison of grouped records, the final sort. -/
def amountGe (a b : GOrder) : Prop := b.amount ≤ a.amount

instance : DecidableRel amountGe := fun a b => Rat.instDecidableLe b.amount a.amount

instance : IsTotal GOrder amountGe := ⟨fun a b => le_total b.amount a.amount⟩

instance : IsTrans GOrder amountGe := ⟨fun _ _ _ h1 h2 => le_trans h2 h1⟩

/-- The `groupedOrders` memo of the App: stable-sort the (already filtered)
orders by ascending date, fold them into the key→group map, then stable-sort
the groups by descending amount. -/
def groupedOrders (orders : List Order) : List GOrder :=
  let sortedRaw := List.insertionSort dateLe orders
  ((sortedRaw.foldl ginsert []).map Prod.snd).insertionSort amountGe

/-! ### Daily aggregation (`dailyStats`) -/

/-- The calendar-day bucket key of an order, `order.date.split('T')[0]` as a
day index: the floor day of the UTC instant. -/
def dayKey (o : Order) : Int := Int.fdiv o.date msPerDay

/-- Insert one order into the insertion-ordered day→stat map, the body of the
`forEach`: get the bucket (or a fresh zero bucket), add `quantity` to
`orderCount` and `amount` to `revenue`, and put it back. -/
def supsert : List (Int × DailyStat) → Order → List (Int × DailyStat)
  | [], o => [(dayKey o, ⟨dayKey o, o.quantity, o.amount⟩)]
  | (k, s) :: rest, o =>
    if k = dayKey o then
      (k, ⟨s.date, s.orderCount + o.quantity, s.revenue + o.amount⟩) :: rest
    else (k, s) :: supsert rest o

/-- Ascending-date comparison of daily buckets, the output sort. -/
def statLe (a b : DailyStat) : Prop := a.date ≤ b.date

instance : DecidableRel statLe := fun a b => Int.decLe a.date b.date

instance : IsTotal DailyStat statLe := ⟨fun a b => Int.le_total a.date b.date⟩

instance : IsTrans DailyStat statLe := ⟨fun _ _ _ h1 h2 => le_trans h1 h2⟩

/-- The `dailyStats` memo of the App, as a function of the list it iterates:
bucket by calendar day in first-seen order, then sort ascending by date. -/
def dailyStats (orders : List Order) : List DailyStat :=
  ((orders.foldl supsert []).map Prod.snd).insertionSort statLe

/-- The App computes `dailyStats` from `filteredOrders`; this is that wiring. -/
def appDailyStats (startDate endDate : Option Int) (orders : List Order) : List DailyStat :=
  dailyStats (filteredOrders startDate endDate orders)

/-! ### Top customers (`topCustomers`) -/

/-- The projection applied to the first grouped records. -/
def projectCustomer (g : GOrder) : TopCustomer :=
  ⟨g.customerName, g.quantity, g.amount, g.date⟩

/-- The `topCustomers` memo of the App: first 5 grouped records, projected. -/
def topCustomers (gs : List GOrder) : List TopCustomer :=
  (gs.take 5).map projectCustomer

/-! ### Record builder and `fetchSalesData` -/

/-- `row[h] = values[i] || ''` over an object: set-or-insert keeping the first
position of the key (JavaScript object semantics for string keys). -/
def setKey : List (String × String) → String → String → List (String × String)
  | [], k, v => [(k, v)]
  | (k0, v0) :: rest, k, v =>
    if k0 = k then (k0, v) :: rest
    else (k0, v0) :: setKey rest k v

/-- The raw header→value object of one data row. -/
def buildRow (headers vals : List String) : List (String × String) :=
  headers.enum.foldl (fun r p => setKey r p.2 (vals.getD p.1 "")) []

/-- Object property read `row[k]` (absent keys read as the empty string,
matching the `|| ''` defaults downstream). -/
def rowGet (row : List (String × String)) (k : String) : String :=
  ((row.find? (fun p => p.1 = k)).map Prod.snd).getD ""

/-- Substring test, `h.includes(k)`. -/
def containsSub (h k : String) : Bool :=
  decide (k.data <:+: h.data)

/-- `findVal`: the value of the first header containing any of the keywords,
or the empty string. -/
def findVal (headers : List String) (row : List (String × String))
    (keywords : List String) : String :=
  match headers.find? (fun h => keywords.any (fun k => containsSub h k)) with
  | some key => rowGet row key
  | none => ""

def dateKeywords : List String := ["thời gian", "ngày", "time", "date"]
def nameKeywords : List String := ["tên khách", "khách hàng", "name"]
def quantityKeywords : List String := ["số đơn", "số lượng", "quantity"]
def amountKeywords : List String := ["tổng tiền", "doanh thu", "amount", "thành tiền"]
def detailKeywords : List String := ["chi tiết", "nội dung", "comment", "product"]
def linkKeywords : List String := ["link facebook", "facebook", "fb"]

/-- The record builder: one `Order` from one data line, `index` being the
position of the line among the data rows. The `amount` field stores the
parsed currency with the `NaN` corner collapsed to `0`; none of the record
builder claims concern `amount`, and the `NaN` behaviour itself is settled on
`parseCurrency` directly. -/
def buildOrder (genericParse : String → Option Int) (now : Int)
    (headers : List String) (line : String) (index : Nat) : Order :=
  let values := parseCSVLine line
  let row := buildRow headers values
  let dateVal := findVal headers row dateKeywords
  let nameVal := findVal headers row nameKeywords
  let quantityVal := findVal headers row quantityKeywords
  let amountVal := findVal headers row amountKeywords
  let detailVal := findVal headers row detailKeywords
  let linkVal := findVal headers row linkKeywords
  ⟨"row-" ++ toString index,
    parseDate genericParse now dateVal,
    (parseCurrency amountVal).getD 0,
    (parseNumber quantityVal : Int),
    (if nameVal = "" then "Khách " ++ toString (index + 1) else nameVal),
    detailVal,
    linkVal,
    row⟩

/-- `fetchSalesData` on a fetched CSV body: split into non-blank lines, first
line gives the lower-cased headers, every further line becomes one `Order`. -/
def fetchSalesData (genericParse : String → Option Int) (now : Int)
    (csvText : String) : List Order :=
  let lines := (splitOnChar '\n' csvText.data).map String.mk
  let lines := lines.filter (fun line => jsTrim line ≠ "")
  match lines with
  | [] => []
  | [_] => []
  | header :: dataLines =>
    let headers := (parseCSVLine header).map jsToLower
    dataLines.enum.map (fun p => buildOrder genericParse now headers p.2 p.1)

/-! ### Specification views of the merged fields -/

/-- Newline-style joining used to describe the accumulated `details`. -/
def joinWith (sep : String) : List String → String
  | [] => ""
  | [x] => x
  | x :: y :: xs => x ++ sep ++ joinWith sep (y :: xs)

/-- The dash-prefixed line contributed by one sub-order. -/
def detailLine (o : Order) : String := "- " ++ o.details

/-- The `details` a grouped record should carry: dash-prefixed non-empty
sub-order details, joined by newlines, in sub-order list order. -/
def specDetails (l : List Order) : String :=
  joinWith "\n" ((l.filter (fun o => o.details ≠ "")).map detailLine)

/-- The `facebookLink` a grouped record should carry: the first non-empty link
of the sub-order list, or the empty string. -/
def specLink (l : List Order) : String :=
  ((l.map Order.facebookLink).filter (fun s => s ≠ "")).headD ""

/-- The lines contributed by the sub-order list. -/
def detailLines (l : List Order) : List String :=
  (l.filter (fun o => o.details ≠ "")).map detailLine

/-- Everything the merge engine maintains for each grouped record, relative to
its own `subOrders`. -/
def GInv (g : GOrder) : Prop :=
  g.subOrders ≠ [] ∧
  g.amount = (g.subOrders.map Order.amount).sum ∧
  g.quantity = (g.subOrders.map Order.quantity).sum ∧
  (∃ lastO, g.subOrders.getLast? = some lastO ∧ g.date = lastO.date) ∧
  g.subOrders.Pairwise dateLe ∧
  g.details = specDetails g.subOrders ∧
  g.facebookLink = specLink g.subOrders ∧
  (∃ firstO, g.subOrders.head? = some firstO ∧ g.id = firstO.id)

/-- All sub-orders stored in the key→group map. -/
def flatSub (m : List (String × GOrder)) : List Order :=
  (m.map (fun p => p.2.subOrders)).flatten

/-- Adding one order into an existing bucket. -/
def bump (s : DailyStat) (o : Order) : DailyStat :=
  ⟨s.date, s.orderCount + o.quantity, s.revenue + o.amount⟩

/-- One step of the bucket accumulation seen through the lens of a single
key: either bump the existing bucket or create a fresh one. -/
def bumpStep (acc : Option DailyStat) (o : Order) : Option DailyStat :=
  some (match acc with
    | some s => bump s o
    | none => ⟨dayKey o, o.quantity, o.amount⟩)

/-- Bucket lookup in the day→stat map. -/
def slookup (m : List (Int × DailyStat)) (k : Int) : Option DailyStat :=
  (m.find? (fun p => p.1 = k)).map Prod.snd

/-- The orders of one calendar day. -/
def dayOrders (l : List Order) (k : Int) : List Order :=
  l.filter (fun o => dayKey o = k)

/-- Sample order named `An` on day 0, amount 100. -/
def oAn : Order := ⟨"row-0", 0, 100, 1, "An", "", "", []⟩

/-- Sample order named ` an ` on day 0 (one millisecond later), amount 50. -/
def oan : Order := ⟨"row-1", 1, 50, 1, " an ", "", "", []⟩

/-- Sample order on calendar day 0. -/
def obA : Order := ⟨"row-0", 0, 100, 1, "A", "", "", []⟩

/-- Sample order on calendar day 1. -/
def obB : Order := ⟨"row-1", 86400000, 50, 1, "B", "", "", []⟩

/-- A generic date parser that always fails, for concrete instantiations. -/
def noParse : String → Option Int := fun _ => none

lemma joinWith_append_singleton (sep x : String) (l : List String) :
    joinWith sep (l ++ [x]) =
      if l = [] then x else joinWith sep l ++ sep ++ x := by
  induction l with
  | nil => simp [joinWith]
  | cons a t ih =>
    cases t with
    | nil => simp [joinWith]
    | cons b t2 =>
      have ih2 : joinWith sep (b :: t2 ++ [x]) = joinWith sep (b :: t2) ++ sep ++ x := by
        rw [ih]
        simp
      simp only [List.cons_append] at ih2 ⊢
      simp only [joinWith]
      rw [ih2, if_neg (by simp)]
      simp [String.append_assoc]

lemma data_ne_nil_of_ne_empty {s : String} (h : s ≠ "") : s.data ≠ [] := by
  intro hd
  exact h (by cases s; simp_all)

lemma ne_empty_of_data_ne_nil {s : String} (h : s.data ≠ []) : s ≠ "" := by
  intro he
  subst he
  exact h rfl

lemma joinWith_ne_empty (sep : String) (l : List String) (hne : l ≠ [])
    (hall : ∀ y ∈ l, y ≠ "") : joinWith sep l ≠ "" := by
  cases l with
  | nil => exact absurd rfl hne
  | cons a t =>
    have ha : a.data ≠ [] := data_ne_nil_of_ne_empty (hall a (by simp))
    cases t with
    | nil =>
      simpa [joinWith] using hall a (by simp)
    | cons b t2 =>
      apply ne_empty_of_data_ne_nil
      simp only [joinWith, String.data_append]
      simp [ha]

lemma detailLine_ne_empty (o : Order) : detailLine o ≠ "" := by
  apply ne_empty_of_data_ne_nil
  simp [detailLine, String.data_append]

lemma specDetails_def (l : List Order) :
    specDetails l = joinWith "\n" (detailLines l) := rfl

lemma detailLines_append (l : List Order) (o : Order) :
    detailLines (l ++ [o]) =
      detailLines l ++ (if o.details = "" then [] else [detailLine o]) := by
  by_cases ho : o.details = "" <;>
    simp [detailLines, List.filter_append, ho]

lemma specDetails_eq_empty_iff (l : List Order) :
    specDetails l = "" ↔ detailLines l = [] := by
  constructor
  · intro h
    by_contra hne
    exact joinWith_ne_empty "\n" _ hne
      (by
        intro y hy
        obtain ⟨o, _, rfl⟩ := List.mem_map.mp hy
        exact detailLine_ne_empty o) h
  · intro h
    rw [specDetails_def, h]
    rfl

lemma specDetails_append (l : List Order) (o : Order) :
    specDetails (l ++ [o]) =
      if o.details = "" then specDetails l
      else if specDetails l = "" then "- " ++ o.details
      else specDetails l ++ "\n" ++ ("- " ++ o.details) := by
  rw [specDetails_def, detailLines_append]
  by_cases ho : o.details = ""
  · rw [if_pos ho, if_pos ho, List.append_nil, specDetails_def]
  · rw [if_neg ho, if_neg ho, joinWith_append_singleton]
    by_cases hl : specDetails l = ""
    · rw [if_pos ((specDetails_eq_empty_iff l).mp hl), if_pos hl]
      rfl
    · rw [if_neg (fun h => hl ((specDetails_eq_empty_iff l).mpr h)), if_neg hl,
        specDetails_def]
      rfl

lemma specLink_cons (a : Order) (t : List Order) :
    specLink (a :: t) =
      if a.facebookLink = "" then specLink t else a.facebookLink := by
  by_cases ha : a.facebookLink = "" <;> simp [specLink, ha]

lemma specLink_append (l : List Order) (o : Order) :
    specLink (l ++ [o]) =
      if specLink l = "" ∧ o.facebookLink ≠ "" then o.facebookLink
      else specLink l := by
  induction l with
  | nil =>
    by_cases ho : o.facebookLink = "" <;> simp [specLink, ho]
  | cons a t ih =>
    rw [List.cons_append, specLink_cons, specLink_cons, ih]
    by_cases ha : a.facebookLink = ""
    · simp [ha]
    · simp only [if_neg ha]
      rw [if_neg (by tauto)]

/-! ### The per-group invariant of the merge engine -/

lemma seed_inv (o : Order) : GInv (seed o) := by
  refine ⟨by simp [seed], by simp [seed], by simp [seed], ⟨o, by simp [seed], rfl⟩,
    by simp [seed], ?_, ?_, ⟨o, by simp [seed], rfl⟩⟩
  · by_cases h : o.details = "" <;>
      simp [seed, specDetails, h, joinWith, detailLine]
  · by_cases h : o.facebookLink = "" <;>
      simp [seed, specLink, h]

lemma mergeInto_inv (g : GOrder) (o : Order) (h : GInv g)
    (hd : ∀ s ∈ g.subOrders, s.date ≤ o.date) : GInv (mergeInto g o) := by
  obtain ⟨hne, hamt, hqty, ⟨lastO, _, _⟩, hpw, hdet, hlink, ⟨firstO, hfst, hid⟩⟩ := h
  refine ⟨by simp [mergeInto], ?_, ?_, ⟨o, ?_, rfl⟩, ?_, ?_, ?_, ⟨firstO, ?_, hid⟩⟩
  · simp [mergeInto, hamt]
  · simp [mergeInto, hqty]
  · simp [mergeInto]
  · simp only [mergeInto]
    refine (List.pairwise_append).mpr ⟨hpw, by simp, ?_⟩
    intro a ha b hb
    have : b = o := by simpa using hb
    subst this
    exact hd a ha
  · simp only [mergeInto, specDetails_append, ← hdet]
  · simp only [mergeInto, specLink_append, ← hlink]
  · simp only [mergeInto]
    cases hsub : g.subOrders with
    | nil => exact absurd hsub hne
    | cons a t => simpa [hsub] using hfst

lemma ginsert_subOrders (m : List (String × GOrder)) (o : Order) :
    ∀ p ∈ ginsert m o, ∀ s ∈ p.2.subOrders,
      (∃ q ∈ m, s ∈ q.2.subOrders) ∨ s = o := by
  induction m with
  | nil =>
    intro p hp s hs
    simp only [ginsert, List.mem_singleton] at hp
    subst hp
    simp only [seed, List.mem_singleton] at hs
    exact Or.inr hs
  | cons q rest ih =>
    intro p hp s hs
    obtain ⟨k, g⟩ := q
    simp only [ginsert] at hp
    by_cases hk : k = normKey o
    · rw [if_pos hk] at hp
      rcases List.mem_cons.mp hp with hp | hp
      · subst hp
        simp only [mergeInto, List.mem_append, List.mem_singleton] at hs
        rcases hs with hs | hs
        · exact Or.inl ⟨(k, g), by simp, hs⟩
        · exact Or.inr hs
      · exact Or.inl ⟨p, by simp [hp], hs⟩
    · rw [if_neg hk] at hp
      rcases List.mem_cons.mp hp with hp | hp
      · subst hp
        exact Or.inl ⟨(k, g), by simp, hs⟩
      · rcases ih p hp s hs with ⟨q2, hq2, hq2s⟩ | hso
        · exact Or.inl ⟨q2, by simp [hq2], hq2s⟩
        · exact Or.inr hso

lemma ginsert_inv (m : List (String × GOrder)) (o : Order)
    (hI : ∀ p ∈ m, GInv p.2)
    (hB : ∀ p ∈ m, ∀ s ∈ p.2.subOrders, s.date ≤ o.date) :
    ∀ p ∈ ginsert m o, GInv p.2 := by
  induction m with
  | nil =>
    intro p hp
    simp only [ginsert, List.mem_singleton] at hp
    subst hp
    exact seed_inv o
  | cons q rest ih =>
    intro p hp
    obtain ⟨k, g⟩ := q
    simp only [ginsert] at hp
    by_cases hk : k = normKey o
    · rw [if_pos hk] at hp
      rcases List.mem_cons.mp hp with hp | hp
      · subst hp
        exact mergeInto_inv g o (hI (k, g) (by simp)) (hB (k, g) (by simp))
      · exact hI p (by simp [hp])
    · rw [if_neg hk] at hp
      rcases List.mem_cons.mp hp with hp | hp
      · subst hp
        exact hI (k, g) (by simp)
      · exact ih (fun q hq => hI q (by simp [hq]))
          (fun q hq => hB q (by simp [hq])) p hp

lemma foldl_ginsert_inv :
    ∀ (l : List Order) (m : List (String × GOrder)),
      (∀ p ∈ m, GInv p.2) →
      (∀ p ∈ m, ∀ s ∈ p.2.subOrders, ∀ r ∈ l, s.date ≤ r.date) →
      l.Pairwise dateLe →
      ∀ p ∈ l.foldl ginsert m, GInv p.2
  | [], _, hI, _, _, p, hp => hI p hp
  | o :: rest, m, hI, hB, hP, p, hp => by
    simp only [List.foldl_cons] at hp
    refine foldl_ginsert_inv rest (ginsert m o) ?_ ?_ (hP.of_cons) p hp
    · exact ginsert_inv m o hI (fun q hq s hs => hB q hq s hs o (by simp))
    · intro q hq s hs r hr
      rcases ginsert_subOrders m o q hq s hs with ⟨q2, hq2, hq2s⟩ | rfl
      · exact hB q2 hq2 s hq2s r (by simp [hr])
      · exact List.rel_of_pairwise_cons hP hr

/-- Every record produced by the grouping engine satisfies the merge
invariant. -/
lemma groupedOrders_inv (orders : List Order) :
    ∀ g ∈ groupedOrders orders, GInv g := by
  intro g hg
  have hg2 : g ∈ ((List.insertionSort dateLe orders).foldl ginsert []).map Prod.snd :=
    (List.perm_insertionSort amountGe _).mem_iff.mp hg
  obtain ⟨p, hp, rfl⟩ := List.mem_map.mp hg2
  exact foldl_ginsert_inv _ [] (by simp) (by simp)
    (List.sorted_insertionSort dateLe orders) p hp

/-! ### The grouping engine partitions its input -/

lemma perm_flatten {α : Type} {l1 l2 : List (List α)} (h : l1.Perm l2) :
    l1.flatten.Perm l2.flatten := by
  induction h with
  | nil => simp
  | cons x _ ih => simpa using ih.append_left x
  | swap x y l =>
    simp only [List.flatten_cons, ← List.append_assoc]
    exact (List.perm_append_comm).append_right _
  | trans _ _ ih1 ih2 => exact ih1.trans ih2

lemma ginsert_flatSub (m : List (String × GOrder)) (o : Order) :
    (flatSub (ginsert m o)).Perm (flatSub m ++ [o]) := by
  induction m with
  | nil => simp [flatSub, ginsert, seed]
  | cons q rest ih =>
    obtain ⟨k, g⟩ := q
    by_cases hk : k = normKey o
    · have h1 : flatSub (ginsert ((k, g) :: rest) o) =
          g.subOrders ++ ([o] ++ flatSub rest) := by
        simp [flatSub, ginsert, if_pos hk, mergeInto, List.append_assoc]
      have h2 : flatSub ((k, g) :: rest) ++ [o] =
          g.subOrders ++ (flatSub rest ++ [o]) := by
        simp [flatSub, List.append_assoc]
      rw [h1, h2]
      exact (List.perm_append_comm).append_left g.subOrders
    · have h1 : flatSub (ginsert ((k, g) :: rest) o) =
          g.subOrders ++ flatSub (ginsert rest o) := by
        simp [flatSub, ginsert, if_neg hk]
      have h2 : flatSub ((k, g) :: rest) ++ [o] =
          g.subOrders ++ (flatSub rest ++ [o]) := by
        simp [flatSub, List.append_assoc]
      rw [h1, h2]
      exact ih.append_left g.subOrders

lemma foldl_ginsert_flatSub :
    ∀ (l : List Order) (m : List (String × GOrder)),
      (flatSub (l.foldl ginsert m)).Perm (flatSub m ++ l)
  | [], m => by simp
  | o :: rest, m => by
    simp only [List.foldl_cons]
    refine (foldl_ginsert_flatSub rest (ginsert m o)).trans ?_
    have h2 : flatSub m ++ (o :: rest) = (flatSub m ++ [o]) ++ rest := by
      simp
    rw [h2]
    exact (ginsert_flatSub m o).append_right rest

/-- The concatenation of the `subOrders` of the grouped output is a
permutation of the input list. -/
lemma groupedOrders_flatten_perm (orders : List Order) :
    ((groupedOrders orders).map GOrder.subOrders).flatten.Perm orders := by
  have h1 : (groupedOrders orders).Perm
      (((List.insertionSort dateLe orders).foldl ginsert []).map Prod.snd) :=
    List.perm_insertionSort amountGe _
  have h2 := perm_flatten (h1.map GOrder.subOrders)
  have h3 : ((((List.insertionSort dateLe orders).foldl ginsert []).map Prod.snd).map
      GOrder.subOrders).flatten =
      flatSub ((List.insertionSort dateLe orders).foldl ginsert []) := by
    simp [flatSub, List.map_map]
    rfl
  rw [h3] at h2
  refine h2.trans ?_
  have h4 := foldl_ginsert_flatSub (List.insertionSort dateLe orders) []
  simp only [flatSub, List.map_nil, List.flatten_nil, List.nil_append] at h4
  exact h4.trans (List.perm_insertionSort dateLe orders)

/-! ### Daily aggregation machinery -/

lemma slookup_cons (q : Int × DailyStat) (rest : List (Int × DailyStat)) (k : Int) :
    slookup (q :: rest) k = if q.1 = k then some q.2 else slookup rest k := by
  by_cases h : q.1 = k <;> simp [slookup, List.find?_cons, h]

lemma slookup_supsert (m : List (Int × DailyStat)) (o : Order) (k : Int) :
    slookup (supsert m o) k =
      if k = dayKey o then bumpStep (slookup m k) o else slookup m k := by
  induction m with
  | nil =>
    by_cases hk : k = dayKey o
    · subst hk
      simp [supsert, slookup_cons, slookup, bumpStep]
    · rw [show supsert [] o = [(dayKey o, ⟨dayKey o, o.quantity, o.amount⟩)] from rfl,
        slookup_cons, if_neg (fun h => hk h.symm), if_neg hk]
  | cons q rest ih =>
    obtain ⟨k0, s0⟩ := q
    by_cases h0 : k0 = dayKey o
    · rw [show supsert ((k0, s0) :: rest) o =
          (k0, ⟨s0.date, s0.orderCount + o.quantity, s0.revenue + o.amount⟩) :: rest
          from by simp [supsert, h0]]
      rw [slookup_cons, slookup_cons]
      by_cases hk : k0 = k
      · simp only [if_pos hk, if_pos (hk.symm.trans h0)]
        simp [bumpStep, bump]
      · simp only [if_neg hk,
          if_neg (fun h : k = dayKey o => hk (h0.trans h.symm))]
    · rw [show supsert ((k0, s0) :: rest) o = (k0, s0) :: supsert rest o
          from by simp [supsert, h0]]
      rw [slookup_cons, slookup_cons, ih]
      by_cases hk : k0 = k
      · simp only [if_pos hk, if_neg (fun h : k = dayKey o => h0 (hk.trans h))]
      · simp only [if_neg hk]

lemma dayOrders_cons (o : Order) (rest : List Order) (k : Int) :
    dayOrders (o :: rest) k =
      if k = dayKey o then o :: dayOrders rest k else dayOrders rest k := by
  by_cases hk : k = dayKey o <;>
    simp [dayOrders, List.filter_cons, hk, eq_comm]

lemma slookup_foldl_supsert :
    ∀ (l : List Order) (m : List (Int × DailyStat)) (k : Int),
      slookup (l.foldl supsert m) k = (dayOrders l k).foldl bumpStep (slookup m k)
  | [], m, k => by simp [dayOrders]
  | o :: rest, m, k => by
    simp only [List.foldl_cons]
    rw [slookup_foldl_supsert rest (supsert m o) k, slookup_supsert, dayOrders_cons]
    by_cases hk : k = dayKey o <;> simp [hk]

lemma foldl_bumpStep_some (l : List Order) (s : DailyStat) :
    l.foldl bumpStep (some s) =
      some ⟨s.date, s.orderCount + (l.map Order.quantity).sum,
        s.revenue + (l.map Order.amount).sum⟩ := by
  induction l generalizing s with
  | nil => simp
  | cons o rest ih =>
    simp only [List.foldl_cons, bumpStep, bump, ih, List.map_cons, List.sum_cons]
    congr 1
    simp [add_assoc]

lemma foldl_bumpStep_cons (o : Order) (rest : List Order) :
    (o :: rest).foldl bumpStep none =
      some ⟨dayKey o, ((o :: rest).map Order.quantity).sum,
        ((o :: rest).map Order.amount).sum⟩ := by
  simp only [List.foldl_cons, bumpStep]
  rw [foldl_bumpStep_some]
  simp [add_comm]

lemma keys_supsert (m : List (Int × DailyStat)) (o : Order) :
    (supsert m o).map Prod.fst =
      if dayKey o ∈ m.map Prod.fst then m.map Prod.fst
      else m.map Prod.fst ++ [dayKey o] := by
  induction m with
  | nil => simp [supsert]
  | cons q rest ih =>
    obtain ⟨k0, s0⟩ := q
    by_cases h0 : k0 = dayKey o
    · simp [supsert, h0]
    · simp only [supsert, if_neg h0, List.map_cons, ih]
      by_cases hmem : dayKey o ∈ rest.map Prod.fst <;>
        simp [hmem, Ne.symm h0]

lemma keys_nodup_foldl :
    ∀ (l : List Order) (m : List (Int × DailyStat)),
      (m.map Prod.fst).Nodup → ((l.foldl supsert m).map Prod.fst).Nodup
  | [], _, h => h
  | o :: rest, m, h => by
    simp only [List.foldl_cons]
    refine keys_nodup_foldl rest (supsert m o) ?_
    rw [keys_supsert]
    by_cases hmem : dayKey o ∈ m.map Prod.fst
    · simpa [hmem] using h
    · simpa [hmem] using (List.nodup_append.mpr ⟨h, by simp, by simp [hmem]⟩)

lemma date_eq_key_supsert (m : List (Int × DailyStat)) (o : Order)
    (h : ∀ p ∈ m, p.2.date = p.1) : ∀ p ∈ supsert m o, p.2.date = p.1 := by
  induction m with
  | nil =>
    intro p hp
    simp only [supsert, List.mem_singleton] at hp
    subst hp
    rfl
  | cons q rest ih =>
    intro p hp
    obtain ⟨k0, s0⟩ := q
    simp only [supsert] at hp
    by_cases h0 : k0 = dayKey o
    · rw [if_pos h0] at hp
      rcases List.mem_cons.mp hp with hp | hp
      · subst hp
        exact h (k0, s0) (by simp)
      · exact h p (by simp [hp])
    · rw [if_neg h0] at hp
      rcases List.mem_cons.mp hp with hp | hp
      · subst hp
        exact h (k0, s0) (by simp)
      · exact ih (fun q hq => h q (by simp [hq])) p hp

lemma date_eq_key_foldl :
    ∀ (l : List Order) (m : List (Int × DailyStat)),
      (∀ p ∈ m, p.2.date = p.1) → ∀ p ∈ l.foldl supsert m, p.2.date = p.1
  | [], _, h, p, hp => h p hp
  | o :: rest, m, h, p, hp => by
    simp only [List.foldl_cons] at hp
    exact date_eq_key_foldl rest (supsert m o) (date_eq_key_supsert m o h) p hp

lemma slookup_of_mem (m : List (Int × DailyStat))
    (h : (m.map Prod.fst).Nodup) (p : Int × DailyStat) (hp : p ∈ m) :
    slookup m p.1 = some p.2 := by
  induction m with
  | nil => simp at hp
  | cons q rest ih =>
    rw [slookup_cons]
    rcases List.mem_cons.mp hp with hp | hp
    · subst hp
      rw [if_pos rfl]
    · have hne : q.1 ≠ p.1 := by
        intro he
        have hmem : p.1 ∈ rest.map Prod.fst := List.mem_map.mpr ⟨p, hp, rfl⟩
        rw [List.map_cons, List.nodup_cons] at h
        exact h.1 (he ▸ hmem)
      rw [if_neg hne]
      exact ih (by rw [List.map_cons, List.nodup_cons] at h; exact h.2) hp

lemma mem_of_slookup (m : List (Int × DailyStat)) (k : Int) (s : DailyStat)
    (h : slookup m k = some s) : (k, s) ∈ m := by
  induction m with
  | nil => simp [slookup] at h
  | cons q rest ih =>
    obtain ⟨k0, s0⟩ := q
    rw [slookup_cons] at h
    by_cases hq : k0 = k
    · rw [if_pos hq] at h
      have hs := Option.some.inj h
      exact List.mem_cons.mpr (Or.inl (by rw [← hq, ← hs]))
    · rw [if_neg hq] at h
      exact List.mem_cons.mpr (Or.inr (ih h))

/-- Every bucket of `dailyStats l` carries the quantity and amount sums of its
day, and every order of `l` has a bucket for its day. -/
lemma dailyStats_spec (l : List Order) :
    (∀ s ∈ dailyStats l,
      s.orderCount = ((dayOrders l s.date).map Order.quantity).sum ∧
      s.revenue = ((dayOrders l s.date).map Order.amount).sum) ∧
    (∀ o ∈ l, ∃ s ∈ dailyStats l, s.date = dayKey o) := by
  have hnodup : (((l.foldl supsert []).map Prod.fst)).Nodup :=
    keys_nodup_foldl l [] (by simp)
  have hdate : ∀ p ∈ l.foldl supsert [], p.2.date = p.1 :=
    date_eq_key_foldl l [] (by simp)
  have hlook : ∀ k, slookup (l.foldl supsert []) k =
      (dayOrders l k).foldl bumpStep none := by
    intro k
    rw [slookup_foldl_supsert]
    rfl
  constructor
  · intro s hs
    have hs2 : s ∈ (l.foldl supsert []).map Prod.snd :=
      (List.perm_insertionSort statLe _).mem_iff.mp hs
    obtain ⟨p, hp, rfl⟩ := List.mem_map.mp hs2
    have hpk := hdate p hp
    have hl : slookup (l.foldl supsert []) p.1 = some p.2 :=
      slookup_of_mem _ hnodup p hp
    rw [hlook p.1] at hl
    rcases hdo : dayOrders l p.1 with _ | ⟨o, rest⟩
    · rw [hdo] at hl
      simp at hl
    · rw [hdo, foldl_bumpStep_cons] at hl
      have hks : dayKey o = p.1 := by
        have hmem : o ∈ dayOrders l p.1 := by rw [hdo]; simp
        simpa [dayOrders] using (List.of_mem_filter hmem)
      have hps := Option.some.inj hl
      constructor
      · rw [← hps]
        simp only [hks, hdo]
      · rw [← hps]
        simp only [hks, hdo]
  · intro o ho
    have hne : dayOrders l (dayKey o) ≠ [] := by
      intro h
      have : o ∈ dayOrders l (dayKey o) := by
        simp [dayOrders, List.mem_filter, ho]
      rw [h] at this
      simp at this
    rcases hdo : dayOrders l (dayKey o) with _ | ⟨o2, rest⟩
    · exact absurd hdo hne
    · have hl : slookup (l.foldl supsert []) (dayKey o) =
          some ⟨dayKey o2, ((o2 :: rest).map Order.quantity).sum,
            ((o2 :: rest).map Order.amount).sum⟩ := by
        rw [hlook, hdo, foldl_bumpStep_cons]
      have hmem := mem_of_slookup _ _ _ hl
      refine ⟨⟨dayKey o2, ((o2 :: rest).map Order.quantity).sum,
          ((o2 :: rest).map Order.amount).sum⟩, ?_, ?_⟩
      · exact (List.perm_insertionSort statLe _).symm.mem_iff.mp
          (List.mem_map.mpr ⟨_, hmem, rfl⟩)
      · exact hdate _ hmem

/-- The buckets of `dailyStats` are strictly ascending by date. -/
lemma dailyStats_sorted (l : List Order) :
    (dailyStats l).Pairwise (fun a b => a.date < b.date) := by
  have hnodup : (((l.foldl supsert []).map Prod.fst)).Nodup :=
    keys_nodup_foldl l [] (by simp)
  have hdate : ∀ p ∈ l.foldl supsert [], p.2.date = p.1 :=
    date_eq_key_foldl l [] (by simp)
  have hle : (dailyStats l).Pairwise statLe :=
    List.sorted_insertionSort statLe _
  have hdates_eq : ((l.foldl supsert []).map Prod.snd).map DailyStat.date =
      (l.foldl supsert []).map Prod.fst := by
    rw [List.map_map]
    exact List.map_congr_left (fun p hp => hdate p hp)
  have hnd : (((l.foldl supsert []).map Prod.snd).map DailyStat.date).Nodup := by
    rw [hdates_eq]
    exact hnodup
  have hnd2 : ((dailyStats l).map DailyStat.date).Nodup :=
    (((List.perm_insertionSort statLe _).map DailyStat.date).nodup_iff).mpr hnd
  have hne : (dailyStats l).Pairwise (fun a b => a.date ≠ b.date) := by
    have h2 := hnd2
    unfold List.Nodup at h2
    rw [List.pairwise_map] at h2
    exact h2
  exact (hle.and hne).imp (fun h => lt_of_le_of_ne h.1 h.2)

/-! ### Splitter support -/

lemma mem_of_mem_trimChars {c : Char} {l : List Char} (h : c ∈ trimChars l) :
    c ∈ l := by
  unfold trimChars at h
  rw [List.mem_reverse] at h
  have h2 := List.Sublist.mem h (List.dropWhile_sublist wsChar)
  rw [List.mem_reverse] at h2
  exact List.Sublist.mem h2 (List.dropWhile_sublist wsChar)

lemma splitFieldsAux_quotefree :
    ∀ (l cur : List Char) (inq : Bool), (∀ c ∈ cur, c ≠ '"') →
      ∀ f ∈ splitFieldsAux l cur inq, ∀ c ∈ f, c ≠ '"'
  | [], cur, inq, hcur, f, hf, c, hc => by
    simp only [splitFieldsAux, List.mem_singleton] at hf
    subst hf
    exact hcur c (List.mem_reverse.mp hc)
  | a :: rest, cur, inq, hcur, f, hf, c, hc => by
    by_cases ha : a = '"'
    · rw [show splitFieldsAux (a :: rest) cur inq = splitFieldsAux rest cur (!inq)
          from by simp [splitFieldsAux, ha]] at hf
      exact splitFieldsAux_quotefree rest cur (!inq) hcur f hf c hc
    · by_cases hcomma : a = ',' ∧ inq = false
      · rw [show splitFieldsAux (a :: rest) cur inq =
            cur.reverse :: splitFieldsAux rest [] inq
            from by simp [splitFieldsAux, ha, hcomma]] at hf
        rcases List.mem_cons.mp hf with hf | hf
        · subst hf
          exact hcur c (List.mem_reverse.mp hc)
        · exact splitFieldsAux_quotefree rest [] inq (by simp) f hf c hc
      · rw [show splitFieldsAux (a :: rest) cur inq =
            splitFieldsAux rest (a :: cur) inq
            from by simp [splitFieldsAux, ha, hcomma]] at hf
        refine splitFieldsAux_quotefree rest (a :: cur) inq ?_ f hf c hc
        intro x hx
        rcases List.mem_cons.mp hx with rfl | hx
        · exact ha
        · exact hcur x hx

lemma splitFields_quotefree (l : List Char) :
    ∀ f ∈ splitFields l, ∀ c ∈ f, c ≠ '"' :=
  splitFieldsAux_quotefree l [] false (by simp)

lemma stripEdgeQuotes_of_quotefree (l : List Char) (h : ∀ c ∈ l, c ≠ '"') :
    stripEdgeQuotes l = l := by
  have hh : ¬ l.head? = some '"' := by
    intro he
    cases l with
    | nil => simp at he
    | cons a t => exact h a (by simp) (by simpa using he)
  have hg : ¬ l.getLast? = some '"' := by
    intro he
    exact h _ (List.mem_of_mem_getLast? (by simp [he])) rfl
  simp [stripEdgeQuotes, hh, hg]

lemma stripQuotePair_of_quotefree (l : List Char) (h : ∀ c ∈ l, c ≠ '"') :
    stripQuotePair l = l := by
  have hh : ¬ l.head? = some '"' := by
    intro he
    cases l with
    | nil => simp at he
    | cons a t => exact h a (by simp) (by simpa using he)
  simp [stripQuotePair, hh]

/-! ### Claim C5 -/

/-- C5: the delimited-text splitter toggles an in-quote state on double
quotes, treats commas inside quotes as literal text, then trims each field,
strips one matching pair of enclosing double quotes, and re-trims; in
particular `a,"b,c",d` splits into `a`, `b,c`, `d`. The pair-stripping view
agrees with the code because split fields never contain a quote. -/
theorem C5_parseCSVLine :
    parseCSVLine "a,\"b,c\",d" = ["a", "b,c", "d"] ∧
    (∀ line : String, parseCSVLine line =
      (splitFields line.data).map
        (fun v => String.mk (trimChars (stripQuotePair (trimChars v))))) ∧
    (∀ line : String, ∀ f ∈ parseCSVLine line, ∀ c ∈ f.data, c ≠ '"') := by
  refine ⟨by decide, ?_, ?_⟩
  · intro line
    unfold parseCSVLine
    refine List.map_congr_left ?_
    intro v hv
    have hqf : ∀ c ∈ trimChars v, c ≠ '"' :=
      fun c hc => splitFields_quotefree line.data v hv c (mem_of_mem_trimChars hc)
    rw [stripQuotePair_of_quotefree _ hqf, stripEdgeQuotes_of_quotefree _ hqf]
  · intro line f hf c hc
    unfold parseCSVLine at hf
    obtain ⟨v, hv, rfl⟩ := List.mem_map.mp hf
    have hqf : ∀ x ∈ trimChars v, x ≠ '"' :=
      fun x hx => splitFields_quotefree line.data v hv x (mem_of_mem_trimChars hx)
    rw [stripEdgeQuotes_of_quotefree _ hqf] at hc
    exact hqf c (mem_of_mem_trimChars hc)

/-! ### Claim C7 -/

/-- C7: the quantity parser keeps only digit characters and parses them as an
integer, with `1` as the default for an empty or non-numeric remainder, and it
never returns `0`; in particular the empty string and `abc` give `1` and
`5 cái` gives `5`. -/
theorem C7_parseNumber :
    parseNumber "" = 1 ∧
    parseNumber "abc" = 1 ∧
    parseNumber "5 cái" = 5 ∧
    (∀ s : String, parseNumber s =
      max 1 (digitsToNat (s.data.filter Char.isDigit))) ∧
    (∀ s : String, parseNumber s ≠ 0) := by
  refine ⟨by decide, by decide, by decide, ?_, ?_⟩
  · intro s
    unfold parseNumber
    by_cases hs : s = ""
    · subst hs
      decide
    · rw [if_neg hs]
      rcases Nat.eq_zero_or_pos (digitsToNat (s.data.filter Char.isDigit)) with h | h
      · simp [h]
      · rw [if_neg (by omega)]
        omega
  · intro s
    unfold parseNumber
    by_cases hs : s = ""
    · simp [hs]
    · rw [if_neg hs]
      rcases Nat.eq_zero_or_pos (digitsToNat (s.data.filter Char.isDigit)) with h | h
      · simp [h]
      · rw [if_neg (by omega)]
        omega

/-! ### Currency parser support -/

lemma takeWhile_eq_self_of_all {p : Char → Bool} {l : List Char}
    (h : ∀ c ∈ l, p c) : l.takeWhile p = l := by
  induction l with
  | nil => rfl
  | cons a t ih =>
    rw [List.takeWhile_cons, if_pos (h a (by simp))]
    rw [ih (fun c hc => h c (by simp [hc]))]

lemma jsParseFloat_digits (l : List Char) (h : ∀ c ∈ l, c.isDigit) :
    jsParseFloat l = if l = [] then none else some ((digitsToNat l : ℚ)) := by
  have ht : l.takeWhile Char.isDigit = l := takeWhile_eq_self_of_all h
  have hd : l.dropWhile Char.isDigit = [] := List.dropWhile_eq_nil_iff.mpr h
  unfold jsParseFloat
  rw [ht, hd]

lemma jsParseFloat_all_dots (l : List Char) (h : ∀ c ∈ l, c = '.') :
    jsParseFloat l = none := by
  cases l with
  | nil => rfl
  | cons a t =>
    have ha : a = '.' := h a (by simp)
    subst ha
    have ht : t.takeWhile Char.isDigit = [] := by
      cases t with
      | nil => rfl
      | cons b t2 =>
        rw [List.takeWhile_cons, if_neg]
        rw [h b (by simp)]
        decide
    unfold jsParseFloat
    rw [show List.takeWhile Char.isDigit ('.' :: t) = [] from by
        rw [List.takeWhile_cons]; rfl,
      show List.dropWhile Char.isDigit ('.' :: t) = '.' :: t from by
        rw [List.dropWhile_cons]; rfl]
    simp [ht]

lemma clean_mem_keep {v : String} {c : Char} (h : c ∈ v.data.filter currencyKeep) :
    c.isDigit ∨ c = '.' ∨ c = ',' := by
  have := List.of_mem_filter h
  unfold currencyKeep at this
  rcases Bool.or_eq_true_iff.mp this with h1 | h2
  · rcases Bool.or_eq_true_iff.mp h1 with h1a | h1b
    · exact Or.inl h1a
    · exact Or.inr (Or.inl (by simpa using h1b))
  · exact Or.inr (Or.inr (by simpa using h2))

lemma data_mk (l : List Char) : (String.mk l).data = l := rfl

/-! ### Claim C3 -/

/-- C3 counterexample: on the input `.` the cleanup keeps `.` alone, the
dots-as-thousands-separators branch strips it to the empty string, and
`parseFloat` of the empty string is `NaN` — the parser returns `NaN`,
not `0` as the claim states for unparsable results. -/
theorem C3_counterexample :
    parseCurrency "." = none ∧ (none : Option ℚ) ≠ some 0 := by
  constructor
  · decide
  · decide

/-- C3 (amended): the currency parser first strips all characters except
digits, `.` and `,`; an empty cleaned result yields `0`; with only `.`
separators they are removed and the digits parsed as an integer; with only
`,` separators likewise; with both, `.` is removed and `,` becomes the
decimal point; a cleaned result with no digit parses to `NaN` (not `0`).
The four spec examples hold. -/
theorem C3_parseCurrency :
    parseCurrency "1.234.567" = some 1234567 ∧
    parseCurrency "1,234,567" = some 1234567 ∧
    parseCurrency "1.234,56" = some ((123456 : ℚ) / 100) ∧
    parseCurrency "" = some 0 ∧
    (∀ v : String, parseCurrency v =
      parseCurrency (String.mk (v.data.filter currencyKeep))) ∧
    (∀ v : String, v.data.filter currencyKeep = [] → parseCurrency v = some 0) ∧
    (∀ v : String, v.data.filter currencyKeep ≠ [] →
      (v.data.filter currencyKeep).contains '.' →
      ¬ (v.data.filter currencyKeep).contains ',' →
      parseCurrency v =
        (if (v.data.filter currencyKeep).filter Char.isDigit = [] then none
         else some ((digitsToNat ((v.data.filter currencyKeep).filter Char.isDigit) : ℚ)))) ∧
    (∀ v : String, v.data.filter currencyKeep ≠ [] →
      (v.data.filter currencyKeep).contains ',' →
      ¬ (v.data.filter currencyKeep).contains '.' →
      parseCurrency v =
        (if (v.data.filter currencyKeep).filter Char.isDigit = [] then none
         else some ((digitsToNat ((v.data.filter currencyKeep).filter Char.isDigit) : ℚ)))) ∧
    (∀ v : String, v.data.filter currencyKeep ≠ [] →
      (v.data.filter currencyKeep).filter Char.isDigit = [] →
      parseCurrency v = none) := by
  have hvne : ∀ v : String, v.data.filter currencyKeep ≠ [] → v ≠ "" := by
    intro v h hv
    subst hv
    exact h rfl
  have hdotsFilter : ∀ v : String,
      ¬ (v.data.filter currencyKeep).contains ',' →
      (v.data.filter currencyKeep).filter (fun c => c ≠ '.') =
        (v.data.filter currencyKeep).filter Char.isDigit := by
    intro v hcomma
    refine List.filter_congr ?_
    intro c hc
    rcases clean_mem_keep hc with hd | hdot | hcm
    · have hne : (c ≠ '.') := by
        intro he
        subst he
        exact absurd hd (by decide)
      simp [hne, hd]
    · subst hdot
      simp
    · subst hcm
      exact absurd (by simpa using hc) (by simpa using hcomma)
  have hcommasFilter : ∀ v : String,
      ¬ (v.data.filter currencyKeep).contains '.' →
      (v.data.filter currencyKeep).filter (fun c => c ≠ ',') =
        (v.data.filter currencyKeep).filter Char.isDigit := by
    intro v hdot
    refine List.filter_congr ?_
    intro c hc
    rcases clean_mem_keep hc with hd | hdt | hcm
    · have hne : (c ≠ ',') := by
        intro he
        subst he
        exact absurd hd (by decide)
      simp [hne, hd]
    · subst hdt
      exact absurd (by simpa using hc) (by simpa using hdot)
    · subst hcm
      simp
  have hdigits : ∀ v : String,
      ∀ c ∈ (v.data.filter currencyKeep).filter Char.isDigit, c.isDigit :=
    fun v c hc => List.of_mem_filter hc
  refine ⟨?_, ?_, ?_, by decide, ?_, ?_, ?_, ?_, ?_⟩
  · show parseCurrency "1.234.567" = some 1234567
    have h1 : parseCurrency "1.234.567" =
        some ((digitsToNat ['1', '2', '3', '4', '5', '6', '7'] : ℚ)) := rfl
    rw [h1, show digitsToNat ['1', '2', '3', '4', '5', '6', '7'] = 1234567 from by decide]
    norm_num
  · show parseCurrency "1,234,567" = some 1234567
    have h1 : parseCurrency "1,234,567" =
        some ((digitsToNat ['1', '2', '3', '4', '5', '6', '7'] : ℚ)) := rfl
    rw [h1, show digitsToNat ['1', '2', '3', '4', '5', '6', '7'] = 1234567 from by decide]
    norm_num
  · show parseCurrency "1.234,56" = some ((123456 : ℚ) / 100)
    have h1 : parseCurrency "1.234,56" =
        some ((digitsToNat ['1', '2', '3', '4'] : ℚ) +
          (digitsToNat ['5', '6'] : ℚ) / (10 : ℚ) ^ (2 : Nat)) := rfl
    rw [h1, show digitsToNat ['1', '2', '3', '4'] = 1234 from by decide,
      show digitsToNat ['5', '6'] = 56 from by decide]
    norm_num
  · intro v
    by_cases hv : v = ""
    · subst hv
      rfl
    · rcases hcl : v.data.filter currencyKeep with _ | ⟨c, t⟩
      · simp only [parseCurrency, if_neg hv, hcl]
        simp
      · have hs2 : String.mk (c :: t) ≠ "" := by
          intro h
          have h2 := congrArg String.data h
          simp [data_mk] at h2
        have hidem : (String.mk (c :: t)).data.filter currencyKeep = c :: t := by
          rw [data_mk]
          refine List.filter_eq_self.mpr ?_
          intro x hx
          rw [← hcl] at hx
          exact List.of_mem_filter hx
        simp only [parseCurrency, if_neg hv, if_neg hs2, hcl, hidem]
  · intro v h
    by_cases hv : v = ""
    · subst hv
      rfl
    · simp only [parseCurrency, if_neg hv, h]
      rfl
  · intro v hne hdot hcomma
    simp only [parseCurrency, if_neg (hvne v hne), if_neg hne,
      if_pos (And.intro hdot hcomma)]
    rw [hdotsFilter v hcomma, jsParseFloat_digits _ (hdigits v)]
  · intro v hne hcomma hdot
    have hnand : ¬ ((v.data.filter currencyKeep).contains '.' ∧
        ¬ (v.data.filter currencyKeep).contains ',') := by
      intro h
      exact absurd h.1 hdot
    simp only [parseCurrency, if_neg (hvne v hne), if_neg hne, if_neg hnand,
      if_pos (And.intro hcomma hdot)]
    rw [hcommasFilter v hdot, jsParseFloat_digits _ (hdigits v)]
  · intro v hne hnodig
    have hnod : ∀ c ∈ v.data.filter currencyKeep, ¬ c.isDigit := by
      intro c hc
      exact List.filter_eq_nil_iff.mp hnodig c hc
    by_cases hdot : (v.data.filter currencyKeep).contains '.'
    · by_cases hcomma : (v.data.filter currencyKeep).contains ','
      · have hnand : ¬ ((v.data.filter currencyKeep).contains '.' ∧
            ¬ (v.data.filter currencyKeep).contains ',') := fun h => absurd hcomma h.2
        have hnand2 : ¬ ((v.data.filter currencyKeep).contains ',' ∧
            ¬ (v.data.filter currencyKeep).contains '.') := fun h => absurd hdot h.2
        simp only [parseCurrency, if_neg (hvne v hne), if_neg hne, if_neg hnand,
          if_neg hnand2]
        refine jsParseFloat_all_dots _ ?_
        intro c hc
        obtain ⟨x, hx, rfl⟩ := List.mem_map.mp hc
        have hx1 : x ∈ v.data.filter currencyKeep := List.mem_of_mem_filter hx
        have hx2 : ¬ (x = '.') := by simpa using List.of_mem_filter hx
        rcases clean_mem_keep hx1 with hd | hdt | hcm
        · exact absurd hd (hnod x hx1)
        · exact absurd hdt hx2
        · subst hcm
          simp
      · simp only [parseCurrency, if_neg (hvne v hne), if_neg hne,
          if_pos (And.intro hdot hcomma)]
        rw [hdotsFilter v hcomma, hnodig]
        rfl
    · by_cases hcomma : (v.data.filter currencyKeep).contains ','
      · have hnand : ¬ ((v.data.filter currencyKeep).contains '.' ∧
            ¬ (v.data.filter currencyKeep).contains ',') := fun h => absurd h.1 hdot
        simp only [parseCurrency, if_neg (hvne v hne), if_neg hne, if_neg hnand,
          if_pos (And.intro hcomma hdot)]
        rw [hcommasFilter v hdot, hnodig]
        rfl
      · exfalso
        rcases hcl : v.data.filter currencyKeep with _ | ⟨c, t⟩
        · exact hne hcl
        · have hc : c ∈ v.data.filter currencyKeep := by rw [hcl]; simp
          rcases clean_mem_keep hc with hd | hdt | hcm
          · exact absurd hd (hnod c hc)
          · subst hdt
            exact hdot (by rw [hcl]; simp [List.contains_cons])
          · subst hcm
            exact hcomma (by rw [hcl]; simp [List.contains_cons])

/-! ### Claim C6 -/

/-- C6: the date parser is total: it first tries the day/month/year pattern
(built in day-month-year order, trailing time ignored), falls back to the
generic parser on an invalid date or no match, and falls back to the current
instant when that also fails — every outcome is one of these three instants.
In particular `21/07/2024` yields the instant of calendar date 2024-07-21. -/
theorem C6_parseDate : ∀ (g : String → Option Int) (now : Int),
    civilFromDays (Int.fdiv (parseDate g now "21/07/2024") msPerDay) =
      ((2024 : Int), 7, 21) ∧
    parseDate g now "21/07/2024 15:30:00" = parseDate g now "21/07/2024" ∧
    (∀ v : String, parseDate g now v = now ∨
      (∃ t, g v = some t ∧ parseDate g now v = t) ∨
      (∃ d m y, findDMY v.data = some (d, m, y) ∧
        validCivil (Int.ofNat y) m d = true ∧
        parseDate g now v = msPerDay * daysFromCivil (Int.ofNat y) m d)) := by
  intro g now
  have hf : findDMY ("21/07/2024".data) = some (21, 7, 2024) := by decide
  have hf2 : findDMY ("21/07/2024 15:30:00".data) = some (21, 7, 2024) := by decide
  have hvc : validCivil (2024 : Int) 7 21 = true := by decide
  have h1 : parseDate g now "21/07/2024" =
      msPerDay * daysFromCivil (2024 : Int) 7 21 := by
    simp [parseDate, hf, hvc]
  have h2 : parseDate g now "21/07/2024 15:30:00" =
      msPerDay * daysFromCivil (2024 : Int) 7 21 := by
    simp [parseDate, hf2, hvc]
  refine ⟨?_, by rw [h1, h2], ?_⟩
  · rw [h1]
    decide
  · intro v
    by_cases hv : v = ""
    · exact Or.inl (by simp [parseDate, hv])
    · rcases hfv : findDMY v.data with _ | ⟨d, m, y⟩
      · rcases hg : g v with _ | t
        · exact Or.inl (by simp [parseDate, hv, hfv, hg])
        · refine Or.inr (Or.inl ⟨t, rfl, ?_⟩)
          simp [parseDate, hv, hfv, hg]
      · by_cases hvc2 : validCivil (y : Int) m d = true
        · refine Or.inr (Or.inr ⟨d, m, y, rfl, hvc2, ?_⟩)
          simp [parseDate, hv, hfv, hvc2]
        · have hvf : validCivil (y : Int) m d = false := by
            simpa using hvc2
          rcases hg : g v with _ | t
          · exact Or.inl (by simp [parseDate, hv, hfv, hvf, hg])
          · refine Or.inr (Or.inl ⟨t, rfl, ?_⟩)
            simp [parseDate, hv, hfv, hvf, hg]

/-! ### Claim C4 -/

/-- C4 counterexample: an order dated one millisecond before the epoch lies
inside the claimed range (no start bound, end day 0: the instant is at most
`dayEndMs 0`), yet the filter drops it, because a missing start bound is the
epoch `0`, not the earliest representable instant. -/
theorem C4_counterexample :
    filteredOrders none (some 0)
        [⟨"o1", -1, 0, 1, "X", "", "", []⟩] = ([] : List Order) ∧
    (-1 : Int) ≤ dayEndMs 0 := by
  constructor
  · simp [filteredOrders, dayEndMs, msPerDay]
  · decide

/-- C4 (amended): with both bounds absent the filter is the identity; with
bounds present it keeps exactly the orders whose instant lies in
`[day start, day end 23:59:59.999]`; a missing start bound defaults to the
epoch `0` (not the earliest representable instant) and a missing end bound
defaults to `Number.MAX_VALUE`. -/
theorem C4_filteredOrders :
    (∀ orders : List Order, filteredOrders none none orders = orders) ∧
    (∀ s e : Int, ∀ orders : List Order,
      filteredOrders (some s) (some e) orders =
        orders.filter (fun o => dayStartMs s ≤ o.date ∧ o.date ≤ dayEndMs e)) ∧
    (∀ e : Int, ∀ orders : List Order,
      filteredOrders none (some e) orders =
        orders.filter (fun o => 0 ≤ o.date ∧ o.date ≤ dayEndMs e)) ∧
    (∀ s : Int, ∀ orders : List Order,
      filteredOrders (some s) none orders =
        orders.filter (fun o => dayStartMs s ≤ o.date ∧ o.date ≤ jsMaxValue)) := by
  refine ⟨?_, ?_, ?_, ?_⟩
  · intro orders
    simp [filteredOrders]
  · intro s e orders
    simp [filteredOrders]
  · intro e orders
    simp [filteredOrders]
  · intro s orders
    simp [filteredOrders]

/-! ### Claim C2 -/

/-- C2 counterexample: with an active date filter spanning only day 0, the
order of day 1 is among the (unfiltered) input orders but no bucket of the
daily stats carries its day — the aggregation buckets the *filtered* orders,
not the unfiltered ones as claimed. -/
theorem C2_counterexample :
    dayKey obB = 1 ∧
    obB ∈ ([obA, obB] : List Order) ∧
    ∀ s ∈ appDailyStats (some 0) (some 0) [obA, obB], s.date ≠ 1 := by
  refine ⟨by decide, by decide, by decide⟩

/-- C2 (amended): the daily-stats aggregation buckets the *date-filtered*
individual (not grouped) orders by calendar day; each bucket's `orderCount`
is the quantity sum and its `revenue` the amount sum of that day's orders,
every order's day has a bucket, and the output is strictly ascending by
date. -/
theorem C2_dailyStats :
    (∀ (sd ed : Option Int) (orders : List Order),
      appDailyStats sd ed orders = dailyStats (filteredOrders sd ed orders)) ∧
    (∀ l : List Order,
      (∀ s ∈ dailyStats l,
        s.orderCount =
          ((l.filter (fun o => dayKey o = s.date)).map Order.quantity).sum ∧
        s.revenue =
          ((l.filter (fun o => dayKey o = s.date)).map Order.amount).sum) ∧
      (∀ o ∈ l, ∃ s ∈ dailyStats l, s.date = dayKey o) ∧
      (dailyStats l).Pairwise (fun a b => a.date < b.date)) := by
  refine ⟨fun _ _ _ => rfl, fun l => ⟨?_, (dailyStats_spec l).2, dailyStats_sorted l⟩⟩
  intro s hs
  exact (dailyStats_spec l).1 s hs

/-- Witness for C2 at a concrete input. -/
theorem C2_witness : ∃ s ∈ dailyStats [obA], s.date = dayKey obA :=
  (C2_dailyStats.2 [obA]).2.1 obA (by simp)

/-! ### Claim C1 -/

lemma le_getLast_of_pairwise :
    ∀ (l : List Order), l.Pairwise dateLe → ∀ x, l.getLast? = some x →
      ∀ s ∈ l, s.date ≤ x.date
  | [], _, x, hx, s, hs => by simp at hs
  | [a], _, x, hx, s, hs => by
    simp only [List.getLast?_singleton, Option.some.injEq] at hx
    simp only [List.mem_singleton] at hs
    subst hx
    subst hs
    exact le_refl _
  | a :: b :: t, hp, x, hx, s, hs => by
    rw [List.getLast?_cons_cons] at hx
    rcases List.mem_cons.mp hs with rfl | hs
    · have hxmem : x ∈ b :: t := List.mem_of_mem_getLast? (by simp [hx])
      exact List.rel_of_pairwise_cons hp hxmem
    · exact le_getLast_of_pairwise (b :: t) hp.of_cons x hx s hs

/-- The grouped record of the two sample orders with equivalent customer
names. -/
lemma groupedOrders_example :
    groupedOrders [oAn, oan] = [mergeInto (seed oAn) oan] := by
  have hKey1 : normKey oAn = "an" := by decide
  have hKey2 : normKey oan = "an" := by decide
  have hsort : List.insertionSort dateLe [oAn, oan] = [oAn, oan] := by
    have hle : dateLe oAn oan := by decide
    simp [List.insertionSort, List.orderedInsert, hle]
  have hfold : ([oAn, oan].foldl ginsert []) = [("an", mergeInto (seed oAn) oan)] := by
    simp [ginsert, hKey1, hKey2]
  simp only [groupedOrders, hsort, hfold]
  simp [List.insertionSort, List.orderedInsert]

/-- C1: every grouped record's `amount` and `quantity` are the sums over its
sub-orders, its `date` is the latest sub-order date (the last one in
processing order), its `details` joins the dash-prefixed non-empty sub-order
details with newlines in ascending-date processing order, and its
`facebookLink` is the first non-empty sub-order link; the orders `An` and
` an ` merge into one record with two sub-orders and the summed amount. -/
theorem C1_groupedOrders :
    (∀ (orders : List Order), ∀ g ∈ groupedOrders orders,
      g.amount = (g.subOrders.map Order.amount).sum ∧
      g.quantity = (g.subOrders.map Order.quantity).sum ∧
      g.subOrders ≠ [] ∧
      (∃ lastO, g.subOrders.getLast? = some lastO ∧ g.date = lastO.date ∧
        ∀ s ∈ g.subOrders, s.date ≤ lastO.date) ∧
      g.subOrders.Pairwise (fun a b => a.date ≤ b.date) ∧
      g.details = joinWith "\n"
        ((g.subOrders.filter (fun o => o.details ≠ "")).map
          (fun o => "- " ++ o.details)) ∧
      g.facebookLink =
        ((g.subOrders.map Order.facebookLink).filter (fun s => s ≠ "")).headD "") ∧
    (groupedOrders [oAn, oan]).map (fun g => (g.subOrders.length, g.amount)) =
      [(2, (150 : ℚ))] := by
  constructor
  · intro orders g hg
    obtain ⟨hne, hamt, hqty, ⟨lastO, hlast, hdate⟩, hpw, hdet, hlink, _⟩ :=
      groupedOrders_inv orders g hg
    refine ⟨hamt, hqty, hne, ⟨lastO, hlast, hdate, ?_⟩, hpw, ?_, hlink⟩
    · exact le_getLast_of_pairwise g.subOrders hpw lastO hlast
    · simpa [specDetails, detailLines, detailLine] using hdet
  · rw [groupedOrders_example]
    simp only [List.map_cons, List.map_nil, mergeInto, seed]
    norm_num [oAn, oan]

/-- Witness for C1 at a concrete grouped record. -/
theorem C1_witness :
    (mergeInto (seed oAn) oan).amount =
      ((mergeInto (seed oAn) oan).subOrders.map Order.amount).sum :=
  (C1_groupedOrders.1 [oAn, oan] (mergeInto (seed oAn) oan)
    (by rw [groupedOrders_example]; simp)).1

/-! ### Claim C9 -/

/-- C9: the top-customers output is the first five grouped records (already
sorted by descending amount) projected to name / total orders / total
revenue / last order date; its length is at most 5 and its revenues are
non-increasing. -/
theorem C9_topCustomers : ∀ orders : List Order,
    topCustomers (groupedOrders orders) =
      ((groupedOrders orders).take 5).map projectCustomer ∧
    (topCustomers (groupedOrders orders)).length ≤ 5 ∧
    (topCustomers (groupedOrders orders)).Pairwise
      (fun a b => b.totalRevenue ≤ a.totalRevenue) := by
  intro orders
  refine ⟨rfl, ?_, ?_⟩
  · rw [show topCustomers (groupedOrders orders) =
      ((groupedOrders orders).take 5).map projectCustomer from rfl]
    rw [List.length_map]
    exact List.length_take_le 5 _
  · have hs : (groupedOrders orders).Pairwise amountGe := by
      unfold groupedOrders
      exact List.sorted_insertionSort amountGe _
    have ht : ((groupedOrders orders).take 5).Pairwise amountGe :=
      List.Pairwise.sublist (List.take_sublist 5 _) hs
    exact List.pairwise_map.mpr (ht.imp (fun h => h))

/-! ### Claim C10 -/

lemma countP_mem_eq_one {α β : Type} [DecidableEq α] (f : β → List α) (a : α) :
    ∀ (L : List β), ((L.map (fun b => (f b).count a)).sum = 1) →
      L.countP (fun b => decide (a ∈ f b)) = 1
  | [], h => by simp at h
  | b :: rest, h => by
    rw [List.map_cons, List.sum_cons] at h
    rw [List.countP_cons]
    by_cases hm : a ∈ f b
    · have h1 : 0 < (f b).count a := List.count_pos_iff.mpr hm
      have h2 : (rest.map (fun b => (f b).count a)).sum = 0 := by omega
      have h3 : ∀ r ∈ rest, ¬ a ∈ f r := by
        intro r hr hmem
        have h4 : 0 < (f r).count a := List.count_pos_iff.mpr hmem
        have h5 : (f r).count a ≤ (rest.map (fun b => (f b).count a)).sum :=
          List.single_le_sum (by simp) _ (List.mem_map.mpr ⟨r, hr, rfl⟩)
        omega
      have h6 : rest.countP (fun b => decide (a ∈ f b)) = 0 :=
        List.countP_eq_zero.mpr (by
          intro r hr
          simpa using h3 r hr)
      simp [hm, h6]
    · have h0 : (f b).count a = 0 := List.count_eq_zero.mpr hm
      rw [h0] at h
      simp only [Nat.zero_add] at h
      simp [hm, countP_mem_eq_one f a rest h]

/-- C10: the grouping engine partitions its input — the concatenation of all
`subOrders` is a permutation of the input list, the sub-order counts sum to
the input length, each record's `id` is the `id` of its first (earliest
processed) sub-order, and on duplicate-free input every order lies in the
`subOrders` of exactly one grouped record. -/
theorem C10_partition : ∀ orders : List Order,
    ((groupedOrders orders).map GOrder.subOrders).flatten.Perm orders ∧
    ((groupedOrders orders).map (fun g => g.subOrders.length)).sum =
      orders.length ∧
    (∀ g ∈ groupedOrders orders,
      ∃ firstO, g.subOrders.head? = some firstO ∧ g.id = firstO.id) ∧
    (orders.Nodup → ∀ o ∈ orders,
      (groupedOrders orders).countP (fun g => decide (o ∈ g.subOrders)) = 1) := by
  intro orders
  have hperm := groupedOrders_flatten_perm orders
  refine ⟨hperm, ?_, ?_, ?_⟩
  · calc ((groupedOrders orders).map (fun g => g.subOrders.length)).sum
        = (((groupedOrders orders).map GOrder.subOrders).map List.length).sum := by
          rw [List.map_map]
          rfl
      _ = ((groupedOrders orders).map GOrder.subOrders).flatten.length :=
          (List.length_flatten _).symm
      _ = orders.length := hperm.length_eq
  · intro g hg
    exact (groupedOrders_inv orders g hg).2.2.2.2.2.2.2
  · intro hnd o ho
    have hcnt : ((groupedOrders orders).map GOrder.subOrders).flatten.count o = 1 := by
      rw [hperm.count_eq]
      exact List.count_eq_one_of_mem hnd ho
    rw [List.count_flatten, List.map_map] at hcnt
    exact countP_mem_eq_one GOrder.subOrders o (groupedOrders orders) hcnt

/-- Witness for C10 at a concrete input. -/
theorem C10_witness :
    (groupedOrders [oAn, oan]).countP (fun g => decide (oAn ∈ g.subOrders)) = 1 :=
  (C10_partition [oAn, oan]).2.2.2 (by decide) oAn (by decide)

/-! ### Claim C8 -/

/-- C8 counterexample: a data row with a blank name yields the placeholder
`Khách 1`, not `Customer 1` as the claim's quoted placeholder states. -/
theorem C8_counterexample :
    (buildOrder noParse 0 ["date", "name"] "1/1/2024," 0).customerName =
      "Khách 1" ∧
    "Khách 1" ≠ "Customer 1" := by
  constructor
  · decide
  · decide

/-- C8 (amended): the record builder gives each row the stable id `row-{n}`,
keeps the full raw header→value mapping as `originalData`, defaults
`customerName` to the placeholder `Khách {n+1}` (not `Customer {n}`) when the
mapped name is empty, and passes the mapped `details` and `facebookLink`
through, which are the empty string whenever no header matches. -/
theorem C8_recordBuilder : ∀ (gp : String → Option Int) (now : Int)
    (headers : List String) (line : String) (i : Nat),
    (buildOrder gp now headers line i).id = "row-" ++ toString i ∧
    (buildOrder gp now headers line i).originalData =
      buildRow headers (parseCSVLine line) ∧
    (findVal headers (buildRow headers (parseCSVLine line)) nameKeywords = "" →
      (buildOrder gp now headers line i).customerName =
        "Khách " ++ toString (i + 1)) ∧
    (findVal headers (buildRow headers (parseCSVLine line)) nameKeywords ≠ "" →
      (buildOrder gp now headers line i).customerName =
        findVal headers (buildRow headers (parseCSVLine line)) nameKeywords) ∧
    (buildOrder gp now headers line i).details =
      findVal headers (buildRow headers (parseCSVLine line)) detailKeywords ∧
    (buildOrder gp now headers line i).facebookLink =
      findVal headers (buildRow headers (parseCSVLine line)) linkKeywords ∧
    (∀ kws : List String,
      headers.find? (fun h => kws.any (fun k => containsSub h k)) = none →
      findVal headers (buildRow headers (parseCSVLine line)) kws = "") := by
  intro gp now headers line i
  refine ⟨rfl, rfl, ?_, ?_, rfl, rfl, ?_⟩
  · intro h
    simp [buildOrder, h]
  · intro h
    simp [buildOrder, h]
  · intro kws h
    simp [findVal, h]

/-- Witness for C8 at a concrete row. -/
theorem C8_witness :
    (buildOrder noParse 0 ["name"] "x" 0).customerName =
      findVal ["name"] (buildRow ["name"] (parseCSVLine "x")) nameKeywords :=
  (C8_recordBuilder noParse 0 ["name"] "x" 0).2.2.2.1 (by decide)

/-- Witness for C3 at a concrete input consisting only of separators. -/
theorem C3_witness : parseCurrency ".," = none :=
  C3_parseCurrency.2.2.2.2.2.2.2.2 ".," (by decide) (by decide)

/-- Witness for C5 at a concrete field and character. -/
theorem C5_witness : ('a' : Char) ≠ '"' :=
  C5_parseCSVLine.2.2 "a" "a" (by decide) 'a' (by decide)

/-- Witness for C7 at a concrete input. -/
theorem C7_witness : parseNumber "7" ≠ 0 :=
  C7_parseNumber.2.2.2.2 "7"

end ThongkeLibe
